import Mathlib

/-!
Verification of the extractive summarization engine in
backend/services/ai_service.py.  Text is modelled as a list of
characters; Python floats are modelled as exact rationals.  The
pipeline is embedded twice: a total function returning a record, and
an Option-valued variant summarizeChecked in which the one partial
operation of the source, the list indexing of ai_service.py line 145
that can raise IndexError, returns none; summarizeChecked_refines
shows the total function agrees with the program wherever the program
returns.
-/

namespace AIAssist

/-- Set of characters Python treats as whitespace: the characters matched
by the regex class backslash-s on strings and stripped by str.strip
(code points 09-0D, 1C-1F, 20, 85, A0, 1680, 2000-200A, 2028, 2029,
202F, 205F, 3000). -/
def pyIsSpace (c : Char) : Bool :=
  let n := c.toNat
  (0x09 ≤ n && n ≤ 0x0D) || (0x1C ≤ n && n ≤ 0x1F) || n = 0x20 ||
  n = 0x85 || n = 0xA0 || n = 0x1680 || (0x2000 ≤ n && n ≤ 0x200A) ||
  n = 0x2028 || n = 0x2029 || n = 0x202F || n = 0x205F || n = 0x3000

/-- Membership in the Arabic Unicode block U+0600 to U+06FF, the
character class of the regex _AR_CHARS_RE (ai_service.py line 19). -/
def isArabicChar (c : Char) : Bool :=
  0x600 ≤ c.toNat && c.toNat ≤ 0x6FF

/-- The sentence-ending punctuation of _SENTENCE_SPLIT_RE
(ai_service.py line 20): period, exclamation mark, question mark,
Arabic question mark, horizontal ellipsis. -/
def isEnder (c : Char) : Bool :=
  c = '.' || c = '!' || c = '?' || c = '؟' || c = '…'

/-- Embeds _has_arabic (ai_service.py lines 47-48): true when some
character of the text lies in the Arabic block. -/
def _has_arabic (text : List Char) : Bool :=
  text.any isArabicChar

/-- Python str.strip: drop the maximal whitespace prefix and suffix. -/
def pyStrip (l : List Char) : List Char :=
  (((l.dropWhile pyIsSpace).reverse.dropWhile pyIsSpace)).reverse

/-- One pass of re.sub replacing every maximal whitespace run by a
single blank.  The Boolean state records whether the scanner is inside
a whitespace run whose replacement blank has already been emitted. -/
def collapseAux : Bool → List Char → List Char
  | _, [] => []
  | inRun, c :: cs =>
    if pyIsSpace c then
      if inRun then collapseAux true cs else ' ' :: collapseAux true cs
    else c :: collapseAux false cs

/-- Embeds _normalize_whitespace (ai_service.py lines 50-51):
strip the raw text, then collapse every whitespace run to one blank. -/
def _normalize_whitespace (text : List Char) : List Char :=
  collapseAux false (pyStrip text)

/-- Scanner for re.split on the pattern of _SENTENCE_SPLIT_RE
(ai_service.py line 20): a split point is a maximal whitespace run
immediately preceded by sentence-ending punctuation, or else a maximal
run of newlines.  state 1 means the scanner is consuming the rest of a
whitespace-run match, state 2 the rest of a newline-run match; acc
holds the current segment reversed; the flag records whether the
previous character was sentence-ending punctuation. -/
def sentAux : Nat → Bool → List Char → List Char → List (List Char)
  | _, _, acc, [] => [acc.reverse]
  | state, prevEnder, acc, c :: cs =>
    if state = 1 ∧ pyIsSpace c = true then sentAux 1 false acc cs
    else if state = 2 ∧ c = '\n' then sentAux 2 false acc cs
    else if prevEnder = true ∧ pyIsSpace c = true then
      acc.reverse :: sentAux 1 false [] cs
    else if c = '\n' then acc.reverse :: sentAux 2 false [] cs
    else sentAux 0 (isEnder c) (c :: acc) cs

/-- Embeds _split_sentences (ai_service.py lines 53-55): split on the
sentence pattern, strip each fragment, and drop the empty ones. -/
def _split_sentences (text : List Char) : List (List Char) :=
  ((sentAux 0 false [] text).map pyStrip).filter (fun s => !s.isEmpty)

/-- Ranges of the Unicode decimal-digit category Nd (Unicode 15), the
characters matched by backslash-d in a Python str regex, as used by
_WORD_RE (ai_service.py line 21). -/
def ndRanges : List (Nat × Nat) :=
  [(0x30, 0x39), (0x660, 0x669), (0x6F0, 0x6F9), (0x7C0, 0x7C9),
   (0x966, 0x96F), (0x9E6, 0x9EF), (0xA66, 0xA6F), (0xAE6, 0xAEF),
   (0xB66, 0xB6F), (0xBE6, 0xBEF), (0xC66, 0xC6F), (0xCE6, 0xCEF),
   (0xD66, 0xD6F), (0xDE6, 0xDEF), (0xE50, 0xE59), (0xED0, 0xED9),
   (0xF20, 0xF29), (0x1040, 0x1049), (0x1090, 0x1099), (0x17E0, 0x17E9),
   (0x1810, 0x1819), (0x1946, 0x194F), (0x19D0, 0x19D9), (0x1A80, 0x1A89),
   (0x1A90, 0x1A99), (0x1B50, 0x1B59), (0x1BB0, 0x1BB9), (0x1C40, 0x1C49),
   (0x1C50, 0x1C59), (0xA620, 0xA629), (0xA8D0, 0xA8D9), (0xA900, 0xA909),
   (0xA9D0, 0xA9D9), (0xA9F0, 0xA9F9), (0xAA50, 0xAA59), (0xABF0, 0xABF9),
   (0xFF10, 0xFF19), (0x104A0, 0x104A9), (0x10D30, 0x10D39),
   (0x11066, 0x1106F), (0x110F0, 0x110F9), (0x11136, 0x1113F),
   (0x111D0, 0x111D9), (0x112F0, 0x112F9), (0x11450, 0x11459),
   (0x114D0, 0x114D9), (0x11650, 0x11659), (0x116C0, 0x116C9),
   (0x11730, 0x11739), (0x118E0, 0x118E9), (0x11950, 0x11959),
   (0x11C50, 0x11C59), (0x11D50, 0x11D59), (0x11DA0, 0x11DA9),
   (0x11F50, 0x11F59), (0x16A60, 0x16A69), (0x16AC0, 0x16AC9),
   (0x16B50, 0x16B59), (0x1D7CE, 0x1D7FF), (0x1E140, 0x1E149),
   (0x1E2F0, 0x1E2F9), (0x1E4F0, 0x1E4F9), (0x1E950, 0x1E959),
   (0x1FBF0, 0x1FBF9)]

/-- Unicode decimal digit, the meaning of backslash-d in _WORD_RE. -/
def isNdDigit (c : Char) : Bool :=
  ndRanges.any (fun r => r.1 ≤ c.toNat && c.toNat ≤ r.2)

/-- The character class of _WORD_RE (ai_service.py line 21): decimal
digits, ASCII letters, the Latin-1 letter ranges C0-D6, D8-F6, F8-FF,
and the Arabic block 0600-06FF. -/
def isWordChar (c : Char) : Bool :=
  let n := c.toNat
  isNdDigit c || (0x41 ≤ n && n ≤ 0x5A) || (0x61 ≤ n && n ≤ 0x7A) ||
  (0xC0 ≤ n && n ≤ 0xD6) || (0xD8 ≤ n && n ≤ 0xF6) ||
  (0xF8 ≤ n && n ≤ 0xFF) || isArabicChar c

/-- Python str.lower as a character-to-string mapping.  It implements
the full Unicode lowercase mapping at every code point where the
tokenizer can observe lowercasing, namely the sixty-one code points
whose lowercase differs from themselves and touches the word class:
the plus-0x20 ranges 41-5A, C0-D6 and D8-DE, together with the five
exceptions 0130 (to 0069 0307, the one multi-character lowercase),
0178 (to 00FF), 1E9E (to 00DF), 212A (to 006B) and 212B (to 00E5) --
an exhaustive list against the Unicode character database.  On every
other code point it is the identity, which is sound for tokenization:
there either the lowercase is the character itself, or the character
and its entire true lowercase lie outside the word class, so both act
only as nonempty token separators and leave the maximal word-class
runs unchanged. -/
def pyLowerChar (c : Char) : List Char :=
  let n := c.toNat
  if 0x41 ≤ n ∧ n ≤ 0x5A then [Char.ofNat (n + 0x20)]
  else if (0xC0 ≤ n ∧ n ≤ 0xD6) ∨ (0xD8 ≤ n ∧ n ≤ 0xDE) then [Char.ofNat (n + 0x20)]
  else if n = 0x130 then [Char.ofNat 0x69, Char.ofNat 0x307]
  else if n = 0x178 then [Char.ofNat 0xFF]
  else if n = 0x1E9E then [Char.ofNat 0xDF]
  else if n = 0x212A then [Char.ofNat 0x6B]
  else if n = 0x212B then [Char.ofNat 0xE5]
  else [c]

/-- Python str.lower on a whole string: each character maps to its
lowercase expansion. -/
def pyLowerStr (s : List Char) : List Char :=
  (s.map pyLowerChar).flatten

/-- Scanner for re.findall on a one-or-more character-class pattern:
collect the maximal runs of characters satisfying p.  acc holds the
current run reversed. -/
def runsAux (p : Char → Bool) : List Char → List Char → List (List Char)
  | acc, [] => if acc.isEmpty then [] else [acc.reverse]
  | acc, c :: cs =>
    if p c then runsAux p (c :: acc) cs
    else if acc.isEmpty then runsAux p [] cs
    else acc.reverse :: runsAux p [] cs

/-- Embeds _tokenize (ai_service.py lines 57-58): lowercase the text,
then collect the maximal runs of word-class characters. -/
def _tokenize (text : List Char) : List (List Char) :=
  runsAux isWordChar [] (pyLowerStr text)

/-- The English stopword set _STOPWORDS_EN (ai_service.py lines 23-34). -/
def _STOPWORDS_EN : List (List Char) :=
  (["the", "a", "an", "is", "are", "was", "were", "be", "been", "being",
    "in", "on", "at", "of", "for", "to", "from", "with", "without", "by",
    "and", "or", "but", "if", "then", "so", "than", "as", "that", "this",
    "these", "those", "it", "its", "into", "about", "over", "after", "before",
    "under", "above", "you", "we", "they", "he", "she", "his", "her", "their",
    "our", "your", "not", "no", "do", "does", "did", "done", "can", "could",
    "should", "would", "will", "just", "also", "such", "i", "me", "my", "myself",
    "ours", "yours", "theirs", "what", "which", "who", "whom", "where", "when",
    "why", "how", "all", "any", "both", "each", "few", "more", "most", "other",
    "some", "own", "same", "s", "t", "d", "ll", "m", "o", "re", "ve", "y"]).map
    (fun w => w.toList)

/-- The Arabic stopword set _STOPWORDS_AR (ai_service.py lines 36-45). -/
def _STOPWORDS_AR : List (List Char) :=
  (["و", "في", "على", "من", "إلى", "الى", "عن", "هذا", "هذه", "ذلك", "تلك",
    "هناك", "هنا", "هو", "هي", "هم", "هن", "أنا", "انا", "أنت", "انت", "أنتم",
    "انتم", "أنتن", "انتن", "نحن", "كما", "مثل", "لكن", "بل", "أو", "او", "أم",
    "ام", "مع", "أكثر", "اكثر", "أقل", "اقل", "قد", "لقد", "لم", "لن", "لا",
    "ما", "ماذا", "لماذا", "كيف", "أين", "اين", "متى", "إن", "ان", "أن", "أنّ",
    "كان", "تكون", "يكون", "كانت", "كانوا", "سوف", "كل", "أي", "اي",
    "بعض", "بين", "ضمن", "خلال", "قبل", "بعد", "عند", "عندما", "حيث", "إذ",
    "اذ", "إلا", "الا", "أيضًا", "ايضًا", "ايضا", "جدًا", "جدا"]).map
    (fun w => w.toList)

/-- The record returned by AIService.summarize. -/
structure SummaryResult where
  summary : List Char
  language : String
  selected_indices : List Nat
  sentences_count : Nat
deriving DecidableEq

/-- The service object: its only state is the two stopword sets fixed
at construction (ai_service.py lines 60-67). -/
structure AIService where
  stopwords_ar : List (List Char)
  stopwords_en : List (List Char)
deriving DecidableEq

/-- The service built with no overrides: both stopword sets default. -/
def defaultService : AIService :=
  ⟨_STOPWORDS_AR, _STOPWORDS_EN⟩

/-- The per-sentence token filter of ai_service.py line 109: keep a
token when it is nonempty, not a stopword, and longer than 2. -/
def filteredTokens (stopwords : List (List Char)) (s : List Char) :
    List (List Char) :=
  (_tokenize s).filter
    (fun t => !t.isEmpty && !stopwords.contains t && decide (2 < t.length))

/-- The target selection count of ai_service.py lines 114, 138 and 141:
Python computes max(1, min(max_sentences, int(max(1, n * ratio)))),
where int truncates and the truncated value is at least 1, hence equal
to the floor. -/
def kOf (n : Nat) (max_sentences : Int) ( ratio : ℚ) : Nat :=
  (max 1 (min max_sentences ⌊max 1 ((n : ℚ) * ratio)⌋)).toNat

/-- The maximal raw count among the distinct tokens, with the dead
guard of ai_service.py line 124 returning 1 on an empty multiset. -/
def maxFreq (toks : List (List Char)) : Nat :=
  if toks = [] then 1
  else ((toks.dedup).map (fun t => toks.count t)).foldr max 0

/-- The normalized frequency weight of a token (ai_service.py lines
123-126 together with the freq.get default of line 134): raw count
divided by the maximal count; a token absent from the table gets 0. -/
def weightOf (allToks : List (List Char)) (t : List Char) : ℚ :=
  (allToks.count t : ℚ) / (maxFreq allToks : ℚ)

/-- The sentence score of ai_service.py line 134: the sum of the
weights of the sentence tokens divided by their number. -/
def scoreOf (allToks : List (List Char)) (toks : List (List Char)) : ℚ :=
  ((toks.map (weightOf allToks)).sum) / (toks.length : ℚ)

/-- The scored-sentence list of ai_service.py lines 128-135: enumerate
the token lists; skip a sentence shorter than min_sentence_len or with
no tokens; otherwise pair its index with its score. -/
def scoresOf (sentences : List (List Char))
    (stoks : List (List (List Char))) (min_sentence_len : Nat) :
    List (Nat × ℚ) :=
  stoks.enum.filterMap (fun p =>
    if (sentences.getD p.1 []).length < min_sentence_len then none
    else if p.2 = [] then none
    else some (p.1, scoreOf stoks.flatten p.2))

/-- Stable sort by score descending, the meaning of Python sorted with
a score key and reverse set (ai_service.py line 142): an element goes
before every element of strictly smaller score and after the earlier
elements of equal score.  Stable sorts under one comparator agree as
functions, so insertion sort is a faithful model of timsort here. -/
def sortDesc (l : List (Nat × ℚ)) : List (Nat × ℚ) :=
  List.insertionSort (fun u v => v.2 ≤ u.2) l

/-- Ascending stable sort of the chosen indices, the Python sorted of
ai_service.py line 143. -/
def sortAsc (l : List Nat) : List Nat :=
  List.insertionSort (fun a b => a ≤ b) l

/-- The selection of ai_service.py lines 142-143: take the first k of
the score-descending list and re-sort their indices ascending. -/
def scoredSelection (k : Nat) (scores : List (Nat × ℚ)) : List Nat :=
  sortAsc (((sortDesc scores).take k).map Prod.fst)

/-- Join sentences with single blanks and strip, the summary assembly
of ai_service.py lines 117 and 146. -/
def joinStrip (xs : List (List Char)) : List Char :=
  pyStrip (List.intercalate [' '] xs)

/-- The stopword choice of ai_service.py line 105: the Arabic set for
language ar, the English set otherwise. -/
def stopwordsFor (svc : AIService) (lang : String) : List (List Char) :=
  if lang = "ar" then svc.stopwords_ar else svc.stopwords_en

/-- The per-sentence filtered token lists of ai_service.py lines
107-110. -/
def stoksOf (svc : AIService) (lang : String)
    (sentences : List (List Char)) : List (List (List Char)) :=
  sentences.map (filteredTokens (stopwordsFor svc lang))

/-- The full scoring pipeline of AIService.summarize, ai_service.py
lines 105-153: pick the stopword set from the language, filter each
sentence into tokens, flatten them, and select either the first k
sentences (when no token or no score exists) or the k top-scoring
sentences re-sorted into original order.  This total version renders
the indexing of line 145 as getD; the variant fullPipelineChecked
below keeps Python's partial indexing, whose IndexError is reachable
exactly on the score-less fallback with k beyond the sentence count,
and agrees with this version everywhere else. -/
def fullPipeline (svc : AIService) (lang : String)
    (sentences : List (List Char)) (max_sentences : Int) ( ratio : ℚ)
    (min_sentence_len : Nat) : SummaryResult :=
  let stoks := stoksOf svc lang sentences
  let allToks := stoks.flatten
  let k := kOf sentences.length max_sentences ratio
  if allToks = [] then
    { summary := joinStrip (sentences.take k), language := lang,
      selected_indices := List.range k,
      sentences_count := sentences.length }
  else
    let scores := scoresOf sentences stoks min_sentence_len
    if scores = [] then
      { summary := joinStrip ((List.range k).map (fun i => sentences.getD i [])),
        language := lang, selected_indices := List.range k,
        sentences_count := sentences.length }
    else
      let selected := scoredSelection k scores
      { summary := joinStrip (selected.map (fun i => sentences.getD i [])),
        language := lang, selected_indices := selected,
        sentences_count := sentences.length }

/-- Embeds AIService.summarize (ai_service.py lines 69-153).  The text
argument is optional: Python treats None via the expression text or
the empty string.  Parameters keep their Python types: max_sentences
an integer, ratio a float modelled as an exact rational,
min_sentence_len a nonnegative integer. -/
def AIService.summarize (svc : AIService) (text : Option (List Char))
    (max_sentences : Int) ( ratio : ℚ) (min_sentence_len : Nat) :
    SummaryResult :=
  let raw := text.getD []
  let cleaned := _normalize_whitespace raw
  if cleaned = [] then
    { summary := [], language := if _has_arabic raw then "ar" else "en",
      selected_indices := [], sentences_count := 0 }
  else
    let lang := if _has_arabic cleaned then "ar" else "en"
    let sentences := _split_sentences cleaned
    if sentences = [] then
      { summary := [], language := lang,
        selected_indices := [], sentences_count := 0 }
    else if sentences.length ≤ 2 ∨ cleaned.length < 200 then
      { summary := cleaned, language := lang,
        selected_indices := List.range sentences.length,
        sentences_count := sentences.length }
    else
      fullPipeline svc lang sentences max_sentences ratio min_sentence_len

/-- The comprehension of ai_service.py line 145 under Python indexing
semantics: sentences selected by index, where an out-of-range index
raises IndexError, modelled as none. -/
def getSentences (sentences : List (List Char)) :
    List Nat → Option (List (List Char))
  | [] => some []
  | i :: is =>
    match sentences[i]? with
    | none => none
    | some s =>
      match getSentences sentences is with
      | none => none
      | some rest => some (s :: rest)

/-- The full pipeline with the partial indexing of ai_service.py line
145 kept: lines 137-143 choose the indices (the first k on the
score-less fallback, the top k re-sorted otherwise), and line 145
fetches the chosen sentences with checked lookups, so a fallback
target k beyond the sentence count yields none, the IndexError, where
fullPipeline substitutes a default. -/
def fullPipelineChecked (svc : AIService) (lang : String)
    (sentences : List (List Char)) (max_sentences : Int) ( ratio : ℚ)
    (min_sentence_len : Nat) : Option SummaryResult :=
  let stoks := stoksOf svc lang sentences
  let allToks := stoks.flatten
  let k := kOf sentences.length max_sentences ratio
  if allToks = [] then
    some { summary := joinStrip (sentences.take k), language := lang,
           selected_indices := List.range k,
           sentences_count := sentences.length }
  else
    let scores := scoresOf sentences stoks min_sentence_len
    let selected := if scores = [] then List.range k else scoredSelection k scores
    match getSentences sentences selected with
    | none => none
    | some picked =>
      some { summary := joinStrip picked, language := lang,
             selected_indices := selected,
             sentences_count := sentences.length }

/-- AIService.summarize with the IndexError path of ai_service.py line
145 modelled as none.  The early-return branches of lines 78-103
cannot raise and rejoin the total model. -/
def summarizeChecked (svc : AIService) (text : Option (List Char))
    (max_sentences : Int) ( ratio : ℚ) (min_sentence_len : Nat) :
    Option SummaryResult :=
  let raw := text.getD []
  let cleaned := _normalize_whitespace raw
  if cleaned = [] then
    some { summary := [], language := if _has_arabic raw then "ar" else "en",
           selected_indices := [], sentences_count := 0 }
  else
    let lang := if _has_arabic cleaned then "ar" else "en"
    let sentences := _split_sentences cleaned
    if sentences = [] then
      some { summary := [], language := lang,
             selected_indices := [], sentences_count := 0 }
    else if sentences.length ≤ 2 ∨ cleaned.length < 200 then
      some { summary := cleaned, language := lang,
             selected_indices := List.range sentences.length,
             sentences_count := sentences.length }
    else
      fullPipelineChecked svc lang sentences max_sentences ratio min_sentence_len

/-! Lemmas about whitespace collapsing and stripping. -/

/-- Two adjacent characters are never both whitespace. -/
def noWsPair (a b : Char) : Prop :=
  ¬(pyIsSpace a = true ∧ pyIsSpace b = true)

theorem collapseAux_cons_space_true {a : Char} (t : List Char)
    (ha : pyIsSpace a = true) :
    collapseAux true (a :: t) = collapseAux true t := by
  simp [collapseAux, ha]

theorem collapseAux_cons_space_false {a : Char} (t : List Char)
    (ha : pyIsSpace a = true) :
    collapseAux false (a :: t) = ' ' :: collapseAux true t := by
  simp [collapseAux, ha]

theorem collapseAux_cons_nonspace {a : Char} (t : List Char) (b : Bool)
    (ha : pyIsSpace a = false) :
    collapseAux b (a :: t) = a :: collapseAux false t := by
  simp [collapseAux, ha]

theorem collapseAux_mem_blank (l : List Char) : ∀ (b : Bool) (c : Char),
    c ∈ collapseAux b l → pyIsSpace c = true → c = ' ' := by
  induction l with
  | nil => intro b c hc; simp [collapseAux] at hc
  | cons a t ih =>
    intro b c hc hsp
    by_cases ha : pyIsSpace a = true
    · cases b with
      | true => rw [collapseAux_cons_space_true t ha] at hc; exact ih true c hc hsp
      | false =>
        rw [collapseAux_cons_space_false t ha] at hc
        rcases List.mem_cons.mp hc with h | h
        · exact h
        · exact ih true c h hsp
    · rw [collapseAux_cons_nonspace t b (Bool.eq_false_iff.mpr ha)] at hc
      rcases List.mem_cons.mp hc with h | h
      · exact absurd (h ▸ hsp) ha
      · exact ih false c h hsp

theorem collapseAux_head_true (l : List Char) :
    ∀ c ∈ (collapseAux true l).head?, pyIsSpace c = false := by
  induction l with
  | nil => intro c hc; simp [collapseAux] at hc
  | cons a t ih =>
    intro c hc
    by_cases ha : pyIsSpace a = true
    · rw [collapseAux_cons_space_true t ha] at hc; exact ih c hc
    · rw [collapseAux_cons_nonspace t true (Bool.eq_false_iff.mpr ha),
        List.head?_cons] at hc
      simp only [Option.mem_def, Option.some.injEq] at hc
      subst hc; exact Bool.eq_false_iff.mpr ha

theorem collapseAux_chain (l : List Char) :
    ∀ b, List.Chain' noWsPair (collapseAux b l) := by
  induction l with
  | nil => intro b; simp [collapseAux]
  | cons a t ih =>
    intro b
    by_cases ha : pyIsSpace a = true
    · cases b with
      | true => rw [collapseAux_cons_space_true t ha]; exact ih true
      | false =>
        rw [collapseAux_cons_space_false t ha]
        refine List.chain'_cons'.mpr ⟨?_, ih true⟩
        intro y hy
        exact fun hp => absurd hp.2 (Bool.eq_false_iff.mp (collapseAux_head_true t y hy))
    · rw [collapseAux_cons_nonspace t b (Bool.eq_false_iff.mpr ha)]
      refine List.chain'_cons'.mpr ⟨?_, ih false⟩
      intro y _
      exact fun hp => absurd hp.1 ha

theorem collapseAux_ne_nil (l : List Char) (hc : ∃ c ∈ l, pyIsSpace c = false) :
    ∀ b, collapseAux b l ≠ [] := by
  induction l with
  | nil => simp at hc
  | cons a t ih =>
    intro b
    by_cases ha : pyIsSpace a = true
    · obtain ⟨c, hcm, hcns⟩ := hc
      have hct : c ∈ t := by
        rcases List.mem_cons.mp hcm with h | h
        · exact absurd (h ▸ ha) (Bool.eq_false_iff.mp hcns)
        · exact h
      cases b with
      | true =>
        rw [collapseAux_cons_space_true t ha]
        exact ih ⟨c, hct, hcns⟩ true
      | false =>
        rw [collapseAux_cons_space_false t ha]
        exact List.cons_ne_nil _ _
    · rw [collapseAux_cons_nonspace t b (Bool.eq_false_iff.mpr ha)]
      exact List.cons_ne_nil _ _

theorem collapseAux_head_of (l : List Char) (c0 : Char)
    (h : l.head? = some c0) (hns : pyIsSpace c0 = false) :
    (collapseAux false l).head? = some c0 := by
  cases l with
  | nil => simp at h
  | cons a t =>
    simp only [List.head?_cons, Option.some.injEq] at h
    subst h
    rw [collapseAux_cons_nonspace t false hns, List.head?_cons]

theorem collapseAux_getLast (l : List Char)
    (hl : ∀ c, l.getLast? = some c → pyIsSpace c = false) :
    ∀ (b : Bool) (c : Char), (collapseAux b l).getLast? = some c →
    pyIsSpace c = false := by
  induction l with
  | nil => intro b c h; simp [collapseAux] at h
  | cons a t ih =>
    intro b c h
    cases t with
    | nil =>
      have hans : pyIsSpace a = false := hl a (by simp)
      rw [collapseAux_cons_nonspace [] b hans] at h
      simp only [collapseAux, List.getLast?_singleton, Option.some.injEq] at h
      subst h; exact hans
    | cons a' t' =>
      have hlt : ∀ c, (a' :: t').getLast? = some c → pyIsSpace c = false := by
        intro c hc
        exact hl c (by rw [List.getLast?_cons_cons]; exact hc)
      have hwit : ∃ c ∈ a' :: t', pyIsSpace c = false := by
        obtain ⟨d, hd⟩ := Option.isSome_iff_exists.mp
          (List.getLast?_isSome.mpr (List.cons_ne_nil a' t'))
        exact ⟨d, List.mem_of_mem_getLast? hd, hlt d hd⟩
      by_cases ha : pyIsSpace a = true
      · cases b with
        | true =>
          rw [collapseAux_cons_space_true (a' :: t') ha] at h
          exact ih hlt true c h
        | false =>
          rw [collapseAux_cons_space_false (a' :: t') ha] at h
          obtain ⟨x, xs, hx⟩ := List.exists_cons_of_ne_nil
            (collapseAux_ne_nil (a' :: t') hwit true)
          rw [hx, List.getLast?_cons_cons, ← hx] at h
          exact ih hlt true c h
      · rw [collapseAux_cons_nonspace (a' :: t') b (Bool.eq_false_iff.mpr ha)] at h
        obtain ⟨x, xs, hx⟩ := List.exists_cons_of_ne_nil
          (collapseAux_ne_nil (a' :: t') hwit false)
        rw [hx, List.getLast?_cons_cons, ← hx] at h
        exact ih hlt false c h

theorem collapseAux_id (l : List Char) (hch : List.Chain' noWsPair l)
    (hbl : ∀ c ∈ l, pyIsSpace c = true → c = ' ') :
    ∀ b, (b = true → ∀ c ∈ l.head?, pyIsSpace c = false) →
    collapseAux b l = l := by
  induction l with
  | nil => intro b _; simp [collapseAux]
  | cons a t ih =>
    intro b hb
    have hcht := List.chain'_cons'.mp hch
    by_cases ha : pyIsSpace a = true
    · cases b with
      | true =>
        exact absurd (hb rfl a (by simp)) (by simp [ha])
      | false =>
        rw [collapseAux_cons_space_false t ha]
        have hae : a = ' ' := hbl a (List.mem_cons_self a t) ha
        have ht : collapseAux true t = t := by
          refine ih hcht.2 (fun c hc hsp => hbl c (List.mem_cons_of_mem a hc) hsp)
            true (fun _ c hc => ?_)
          have := hcht.1 c hc
          simp only [noWsPair, ha, true_and] at this
          exact Bool.eq_false_iff.mpr this
        rw [ht, hae]
    · rw [collapseAux_cons_nonspace t b (Bool.eq_false_iff.mpr ha)]
      rw [ih hcht.2 (fun c hc hsp => hbl c (List.mem_cons_of_mem a hc) hsp) false
        (fun hfalse => absurd hfalse Bool.false_ne_true)]

/-! Lemmas about stripping. -/

theorem head?_dropWhile {α : Type} (p : α → Bool) (l : List α) (c : α)
    (h : (l.dropWhile p).head? = some c) : p c = false := by
  induction l with
  | nil => simp at h
  | cons a t ih =>
    by_cases ha : p a = true
    · rw [List.dropWhile_cons_of_pos ha] at h; exact ih h
    · rw [List.dropWhile_cons_of_neg ha, List.head?_cons] at h
      cases h; exact Bool.eq_false_iff.mpr ha

theorem mem_dropWhile_of {α : Type} (p : α → Bool) (l : List α) (c : α)
    (hc : c ∈ l) (hpc : p c = false) : c ∈ l.dropWhile p := by
  induction l with
  | nil => simp at hc
  | cons a t ih =>
    by_cases ha : p a = true
    · rw [List.dropWhile_cons_of_pos ha]
      rcases List.mem_cons.mp hc with h | h
      · exact absurd (h ▸ ha) (Bool.eq_false_iff.mp hpc)
      · exact ih h
    · rw [List.dropWhile_cons_of_neg ha]; exact hc

theorem pyStrip_head (l : List Char) (c : Char)
    (h : (pyStrip l).head? = some c) : pyIsSpace c = false := by
  unfold pyStrip at h
  rw [List.head?_reverse] at h
  obtain ⟨pre, hpre⟩ := List.dropWhile_suffix
    (l := (l.dropWhile pyIsSpace).reverse) pyIsSpace
  have h2 : (l.dropWhile pyIsSpace).reverse.getLast? = some c := by
    rw [← hpre, List.getLast?_append, h]; rfl
  rw [List.getLast?_reverse] at h2
  exact head?_dropWhile pyIsSpace l c h2

theorem pyStrip_last (l : List Char) (c : Char)
    (h : (pyStrip l).getLast? = some c) : pyIsSpace c = false := by
  unfold pyStrip at h
  rw [List.getLast?_reverse] at h
  exact head?_dropWhile pyIsSpace _ c h

theorem dropWhile_eq_self_of_head {α : Type} (p : α → Bool) (l : List α)
    (h : ∀ c ∈ l.head?, p c = false) : l.dropWhile p = l := by
  cases l with
  | nil => rfl
  | cons a t =>
    exact List.dropWhile_cons_of_neg
      (by simpa using Bool.eq_false_iff.mp (h a (by simp)))

theorem pyStrip_eq_self (l : List Char)
    (hh : ∀ c ∈ l.head?, pyIsSpace c = false)
    (hl : ∀ c, l.getLast? = some c → pyIsSpace c = false) : pyStrip l = l := by
  unfold pyStrip
  rw [dropWhile_eq_self_of_head pyIsSpace l hh]
  rw [dropWhile_eq_self_of_head pyIsSpace l.reverse
    (fun c hc => hl c (by rwa [List.head?_reverse] at hc))]
  exact List.reverse_reverse l

theorem pyStrip_all_space (l : List Char) (h : ∀ c ∈ l, pyIsSpace c = true) :
    pyStrip l = [] := by
  unfold pyStrip
  rw [List.dropWhile_eq_nil_iff.mpr h]
  rfl

theorem pyStrip_ne_nil (l : List Char) (h : ∃ c ∈ l, pyIsSpace c = false) :
    pyStrip l ≠ [] := by
  obtain ⟨c, hcm, hcns⟩ := h
  intro hnil
  unfold pyStrip at hnil
  rw [List.reverse_eq_nil_iff] at hnil
  have hall := List.dropWhile_eq_nil_iff.mp hnil
  have hc1 : c ∈ l.dropWhile pyIsSpace := mem_dropWhile_of pyIsSpace l c hcm hcns
  have hc2 : c ∈ (l.dropWhile pyIsSpace).reverse := List.mem_reverse.mpr hc1
  exact absurd (hall c hc2) (Bool.eq_false_iff.mp hcns)

/-! Lemmas about the composed normalizer. -/

theorem norm_head (t : List Char) (c : Char)
    (h : (_normalize_whitespace t).head? = some c) : pyIsSpace c = false := by
  unfold _normalize_whitespace at h
  cases hs : (pyStrip t).head? with
  | none =>
    rw [List.head?_eq_none_iff.mp hs] at h
    simp [collapseAux] at h
  | some c0 =>
    rw [collapseAux_head_of (pyStrip t) c0 hs (pyStrip_head t c0 hs)] at h
    injection h with h
    exact h ▸ pyStrip_head t c0 hs

theorem norm_last (t : List Char) (c : Char)
    (h : (_normalize_whitespace t).getLast? = some c) : pyIsSpace c = false :=
  collapseAux_getLast (pyStrip t) (pyStrip_last t) false c h

theorem norm_chain (t : List Char) :
    List.Chain' noWsPair (_normalize_whitespace t) :=
  collapseAux_chain (pyStrip t) false

theorem norm_blank (t : List Char) (c : Char)
    (hc : c ∈ _normalize_whitespace t) (hsp : pyIsSpace c = true) : c = ' ' :=
  collapseAux_mem_blank (pyStrip t) false c hc hsp

theorem norm_idem (t : List Char) :
    _normalize_whitespace (_normalize_whitespace t) = _normalize_whitespace t := by
  conv_lhs => rw [_normalize_whitespace]
  rw [pyStrip_eq_self (_normalize_whitespace t)
    (fun c hc => norm_head t c hc) (norm_last t)]
  exact collapseAux_id (_normalize_whitespace t) (norm_chain t) (norm_blank t)
    false (fun hfalse => absurd hfalse Bool.false_ne_true)

theorem norm_all_space (t : List Char) (h : ∀ c ∈ t, pyIsSpace c = true) :
    _normalize_whitespace t = [] := by
  unfold _normalize_whitespace
  rw [pyStrip_all_space t h]
  rfl

/-! Lemmas about sentence splitting. -/

theorem sentAux_exists_nonspace (l : List Char) :
    ∀ (state : Nat) (pe : Bool) (acc : List Char),
    ((∃ c ∈ l, pyIsSpace c = false) ∨ (∃ c ∈ acc, pyIsSpace c = false)) →
    ∃ part ∈ sentAux state pe acc l, ∃ c ∈ part, pyIsSpace c = false := by
  induction l with
  | nil =>
    intro state pe acc h
    rcases h with ⟨c, hc, _⟩ | ⟨c, hc, hns⟩
    · simp at hc
    · exact ⟨acc.reverse, by simp [sentAux], c, List.mem_reverse.mpr hc, hns⟩
  | cons a t ih =>
    intro state pe acc h
    simp only [sentAux]
    split_ifs with h1 h2 h3 h4
    · refine ih 1 false acc ?_
      rcases h with ⟨c, hc, hns⟩ | hr
      · rcases List.mem_cons.mp hc with rfl | hct
        · exact absurd h1.2 (Bool.eq_false_iff.mp hns)
        · exact Or.inl ⟨c, hct, hns⟩
      · exact Or.inr hr
    · refine ih 2 false acc ?_
      rcases h with ⟨c, hc, hns⟩ | hr
      · rcases List.mem_cons.mp hc with rfl | hct
        · rw [h2.2] at hns; exact absurd hns (by decide)
        · exact Or.inl ⟨c, hct, hns⟩
      · exact Or.inr hr
    · rcases h with ⟨c, hc, hns⟩ | ⟨c, hc, hns⟩
      · rcases List.mem_cons.mp hc with rfl | hct
        · exact absurd h3.2 (Bool.eq_false_iff.mp hns)
        · obtain ⟨part, hpm, hw⟩ := ih 1 false [] (Or.inl ⟨c, hct, hns⟩)
          exact ⟨part, List.mem_cons_of_mem _ hpm, hw⟩
      · exact ⟨acc.reverse, List.mem_cons_self _ _, c, List.mem_reverse.mpr hc, hns⟩
    · rcases h with ⟨c, hc, hns⟩ | ⟨c, hc, hns⟩
      · rcases List.mem_cons.mp hc with rfl | hct
        · rw [h4] at hns; exact absurd hns (by decide)
        · obtain ⟨part, hpm, hw⟩ := ih 2 false [] (Or.inl ⟨c, hct, hns⟩)
          exact ⟨part, List.mem_cons_of_mem _ hpm, hw⟩
      · exact ⟨acc.reverse, List.mem_cons_self _ _, c, List.mem_reverse.mpr hc, hns⟩
    · refine ih 0 (isEnder a) (a :: acc) ?_
      rcases h with ⟨c, hc, hns⟩ | ⟨c, hc, hns⟩
      · rcases List.mem_cons.mp hc with rfl | hct
        · exact Or.inr ⟨c, List.mem_cons_self _ _, hns⟩
        · exact Or.inl ⟨c, hct, hns⟩
      · exact Or.inr ⟨c, List.mem_cons_of_mem a hc, hns⟩

theorem split_sentences_ne_nil (t : List Char)
    (h : ∃ c ∈ t, pyIsSpace c = false) : _split_sentences t ≠ [] := by
  obtain ⟨part, hpm, c, hcm, hcns⟩ := sentAux_exists_nonspace t 0 false [] (Or.inl h)
  intro hnil
  unfold _split_sentences at hnil
  have h1 : pyStrip part ∈ (sentAux 0 false [] t).map pyStrip :=
    List.mem_map_of_mem pyStrip hpm
  obtain ⟨x, xs, hx⟩ := List.exists_cons_of_ne_nil
    (pyStrip_ne_nil part ⟨c, hcm, hcns⟩)
  have h2 : pyStrip part ∈ ((sentAux 0 false [] t).map pyStrip).filter
      (fun s => !s.isEmpty) :=
    List.mem_filter.mpr ⟨h1, by rw [hx]; rfl⟩
  rw [hnil] at h2
  simp at h2

/-! Preservation of Arabic characters through normalization. -/

theorem space_not_arabic (c : Char) (h : pyIsSpace c = true) :
    isArabicChar c = false := by
  simp only [pyIsSpace, Bool.or_eq_true, Bool.and_eq_true, decide_eq_true_eq] at h
  rw [← Bool.not_eq_true]
  simp only [isArabicChar, Bool.and_eq_true, decide_eq_true_eq]
  omega

theorem collapseAux_any_arabic (l : List Char) :
    ∀ b, (collapseAux b l).any isArabicChar = l.any isArabicChar := by
  induction l with
  | nil => intro b; simp [collapseAux]
  | cons a t ih =>
    intro b
    by_cases ha : pyIsSpace a = true
    · have haa : isArabicChar a = false := space_not_arabic a ha
      cases b with
      | true =>
        rw [collapseAux_cons_space_true t ha, ih true, List.any_cons, haa,
          Bool.false_or]
      | false =>
        rw [collapseAux_cons_space_false t ha, List.any_cons, ih true,
          List.any_cons, haa]
        rfl
    · rw [collapseAux_cons_nonspace t b (Bool.eq_false_iff.mpr ha),
        List.any_cons, List.any_cons, ih false]

theorem dropWhile_any_arabic (l : List Char) :
    (l.dropWhile pyIsSpace).any isArabicChar = l.any isArabicChar := by
  induction l with
  | nil => rfl
  | cons a t ih =>
    by_cases ha : pyIsSpace a = true
    · rw [List.dropWhile_cons_of_pos ha, ih, List.any_cons,
        space_not_arabic a ha, Bool.false_or]
    · rw [List.dropWhile_cons_of_neg (by simpa using Bool.eq_false_iff.mpr ha)]

theorem pyStrip_any_arabic (l : List Char) :
    (pyStrip l).any isArabicChar = l.any isArabicChar := by
  unfold pyStrip
  rw [List.any_reverse, dropWhile_any_arabic, List.any_reverse,
    dropWhile_any_arabic]

theorem norm_any_arabic (t : List Char) :
    (_normalize_whitespace t).any isArabicChar = t.any isArabicChar := by
  unfold _normalize_whitespace
  rw [collapseAux_any_arabic, pyStrip_any_arabic]

theorem has_arabic_norm (t : List Char) :
    _has_arabic (_normalize_whitespace t) = _has_arabic t :=
  norm_any_arabic t

/-! Branch characterizations of summarize. -/

theorem norm_has_nonspace (t : List Char) (h : _normalize_whitespace t ≠ []) :
    ∃ c ∈ _normalize_whitespace t, pyIsSpace c = false := by
  obtain ⟨x, xs, hx⟩ := List.exists_cons_of_ne_nil h
  exact ⟨x, by rw [hx]; exact List.mem_cons_self _ _,
    norm_head t x (by rw [hx]; rfl)⟩

theorem split_norm_ne_nil (t : List Char) (h : _normalize_whitespace t ≠ []) :
    _split_sentences (_normalize_whitespace t) ≠ [] :=
  split_sentences_ne_nil _ (norm_has_nonspace t h)

theorem summarize_empty_branch (svc : AIService) (text : Option (List Char))
    (maxS : Int) ( ratio : ℚ) (minLen : Nat)
    (h : _normalize_whitespace (text.getD []) = []) :
    AIService.summarize svc text maxS ratio minLen =
      { summary := [],
        language := if _has_arabic (text.getD []) then "ar" else "en",
        selected_indices := [], sentences_count := 0 } := by
  simp only [AIService.summarize]
  rw [if_pos h]

theorem summarize_short_branch (svc : AIService) (text : Option (List Char))
    (maxS : Int) ( ratio : ℚ) (minLen : Nat)
    (h1 : _normalize_whitespace (text.getD []) ≠ [])
    (h2 : (_split_sentences (_normalize_whitespace (text.getD []))).length ≤ 2 ∨
      (_normalize_whitespace (text.getD [])).length < 200) :
    AIService.summarize svc text maxS ratio minLen =
      { summary := _normalize_whitespace (text.getD []),
        language := if _has_arabic (_normalize_whitespace (text.getD []))
          then "ar" else "en",
        selected_indices :=
          List.range (_split_sentences (_normalize_whitespace (text.getD []))).length,
        sentences_count :=
          (_split_sentences (_normalize_whitespace (text.getD []))).length } := by
  simp only [AIService.summarize]
  rw [if_neg h1, if_neg (split_norm_ne_nil _ h1), if_pos h2]

theorem summarize_full_branch (svc : AIService) (text : Option (List Char))
    (maxS : Int) ( ratio : ℚ) (minLen : Nat)
    (h1 : _normalize_whitespace (text.getD []) ≠ [])
    (h2 : ¬((_split_sentences (_normalize_whitespace (text.getD []))).length ≤ 2 ∨
      (_normalize_whitespace (text.getD [])).length < 200)) :
    AIService.summarize svc text maxS ratio minLen =
      fullPipeline svc
        (if _has_arabic (_normalize_whitespace (text.getD [])) then "ar" else "en")
        (_split_sentences (_normalize_whitespace (text.getD [])))
        maxS ratio minLen := by
  simp only [AIService.summarize]
  rw [if_neg h1, if_neg (split_norm_ne_nil _ h1), if_neg h2]

theorem fullPipeline_count (svc : AIService) (lang : String)
    (sentences : List (List Char)) (maxS : Int) ( ratio : ℚ) (minLen : Nat) :
    (fullPipeline svc lang sentences maxS ratio minLen).sentences_count =
      sentences.length := by
  simp only [fullPipeline]
  split_ifs <;> rfl

theorem fullPipeline_language (svc : AIService) (lang : String)
    (sentences : List (List Char)) (maxS : Int) ( ratio : ℚ) (minLen : Nat) :
    (fullPipeline svc lang sentences maxS ratio minLen).language = lang := by
  simp only [fullPipeline]
  split_ifs <;> rfl

/-! Claim C7. -/

/-- C7: whitespace normalization is idempotent; every whitespace-only
(in particular empty) input normalizes to the empty string; the output
has no leading or trailing whitespace, so stripping it is the
identity, and no two adjacent whitespace characters, so no internal
run of more than one whitespace character. -/
theorem C7_normalize_idempotent (s : List Char) :
    _normalize_whitespace (_normalize_whitespace s) = _normalize_whitespace s ∧
    ((∀ c ∈ s, pyIsSpace c = true) → _normalize_whitespace s = []) ∧
    pyStrip (_normalize_whitespace s) = _normalize_whitespace s ∧
    List.Chain' noWsPair (_normalize_whitespace s) :=
  ⟨norm_idem s, norm_all_space s,
   pyStrip_eq_self _ (fun c hc => norm_head s c hc) (norm_last s),
   norm_chain s⟩

/-- Witness for C7 at concrete inputs: a whitespace-only string
normalizes to the empty string, and normalization of a string already
containing a single interior blank is idempotent. -/
theorem C7_normalize_idempotent_witness :
    _normalize_whitespace ((" \t ").toList) = [] ∧
    _normalize_whitespace
        (_normalize_whitespace (("ab cd").toList)) =
      _normalize_whitespace (("ab cd").toList) :=
  ⟨(C7_normalize_idempotent ((" \t ").toList)).2.1 (by decide),
   (C7_normalize_idempotent (("ab cd").toList)).1⟩

/-! Claim C10. -/

/-- C10: for every input whose normalized text is non-empty, sentence
segmentation returns at least one sentence; consequently the
empty-result branch of summarize guarded by an empty segmentation is
unreachable and the reported sentence count is at least one. -/
theorem C10_segmentation_nonempty (svc : AIService) (s : List Char)
    (maxS : Int) ( ratio : ℚ) (minLen : Nat)
    (h : _normalize_whitespace s ≠ []) :
    _split_sentences (_normalize_whitespace s) ≠ [] ∧
    1 ≤ (AIService.summarize svc (some s) maxS ratio minLen).sentences_count := by
  have hs : _split_sentences (_normalize_whitespace s) ≠ [] :=
    split_norm_ne_nil s h
  refine ⟨hs, ?_⟩
  have hpos : 1 ≤ (_split_sentences (_normalize_whitespace s)).length :=
    List.length_pos.mpr hs
  by_cases h2 : (_split_sentences (_normalize_whitespace s)).length ≤ 2 ∨
      (_normalize_whitespace s).length < 200
  · rw [summarize_short_branch svc (some s) maxS ratio minLen h h2]
    exact hpos
  · rw [summarize_full_branch svc (some s) maxS ratio minLen h h2]
    rw [fullPipeline_count]
    exact hpos

/-- Witness for C10 at a concrete input. -/
theorem C10_segmentation_nonempty_witness :
    _split_sentences (_normalize_whitespace (("hi").toList)) ≠ [] ∧
    1 ≤ (AIService.summarize defaultService (some (("hi").toList))
      3 (1/4) 30).sentences_count :=
  C10_segmentation_nonempty defaultService (("hi").toList) 3 (1/4) 30 (by decide)

/-! Claim C4. -/

/-- C4: summarize reports language ar exactly when the raw input text
contains a character of the Arabic block, and en otherwise, including
for empty and null input, on every branch and parameter setting. -/
theorem C4_language_detection (svc : AIService) (text : Option (List Char))
    (maxS : Int) ( ratio : ℚ) (minLen : Nat) :
    (AIService.summarize svc text maxS ratio minLen).language =
      if _has_arabic (text.getD []) then "ar" else "en" := by
  by_cases h1 : _normalize_whitespace (text.getD []) = []
  · rw [summarize_empty_branch svc text maxS ratio minLen h1]
  · have har := has_arabic_norm (text.getD [])
    by_cases h2 : (_split_sentences (_normalize_whitespace (text.getD []))).length ≤ 2 ∨
        (_normalize_whitespace (text.getD [])).length < 200
    · rw [summarize_short_branch svc text maxS ratio minLen h1 h2, har]
    · rw [summarize_full_branch svc text maxS ratio minLen h1 h2,
        fullPipeline_language, har]

/-! Bounds on the selection target k. -/

theorem kOf_pos (n : Nat) (maxS : Int) ( r : ℚ) : 1 ≤ kOf n maxS r := by
  unfold kOf
  have h : (1 : ℤ) ≤ max 1 (min maxS ⌊max 1 ((n : ℚ) * r)⌋) := le_max_left _ _
  calc 1 = (1 : ℤ).toNat := rfl
    _ ≤ _ := Int.toNat_le_toNat h

theorem floor_inner_pos (n : Nat) ( r : ℚ) :
    (1 : ℤ) ≤ ⌊max 1 ((n : ℚ) * r)⌋ :=
  Int.le_floor.mpr (by exact_mod_cast le_max_left (1 : ℚ) ((n : ℚ) * r))

theorem kOf_le_maxS (n : Nat) (maxS : Int) ( r : ℚ) (h : 1 ≤ maxS) :
    kOf n maxS r ≤ maxS.toNat := by
  unfold kOf
  rw [max_eq_right (le_min h (floor_inner_pos n r))]
  exact Int.toNat_le_toNat (min_le_left _ _)

theorem kOf_le_n (n : Nat) (maxS : Int) ( r : ℚ) (hr : r ≤ 1) (hn : 1 ≤ n) :
    kOf n maxS r ≤ n := by
  unfold kOf
  have h1 : max 1 ((n : ℚ) * r) ≤ (n : ℚ) := by
    apply max_le
    · exact_mod_cast hn
    · calc (n : ℚ) * r ≤ (n : ℚ) * 1 :=
            mul_le_mul_of_nonneg_left hr (by positivity)
      _ = n := mul_one _
  have hfl : ⌊max 1 ((n : ℚ) * r)⌋ ≤ (n : ℤ) := by
    calc ⌊max 1 ((n : ℚ) * r)⌋ ≤ ⌊(n : ℚ)⌋ := Int.floor_le_floor h1
      _ = n := Int.floor_natCast n
  have hmax : max 1 (min maxS ⌊max 1 ((n : ℚ) * r)⌋) ≤ (n : ℤ) :=
    max_le (by exact_mod_cast hn) (le_trans (min_le_right _ _) hfl)
  calc _ ≤ ((n : ℤ)).toNat := Int.toNat_le_toNat hmax
    _ = n := Int.toNat_natCast n

/-! Score-list structure. -/

theorem map_fst_filterMap_sublist {α γ : Type} (f : (Nat × α) → Option (Nat × γ))
    (hf : ∀ p q, f p = some q → q.1 = p.1) :
    ∀ l : List (Nat × α), List.Sublist ((l.filterMap f).map Prod.fst) (l.map Prod.fst) := by
  intro l
  induction l with
  | nil => simp
  | cons a t ih =>
    rw [List.filterMap_cons]
    cases hfa : f a with
    | none =>
      rw [List.map_cons]
      exact ih.trans (List.sublist_cons_self _ _)
    | some q =>
      rw [List.map_cons, List.map_cons, hf a q hfa]
      exact ih.cons₂ _

theorem scoresOf_map_fst_sublist (sentences : List (List Char))
    (stoks : List (List (List Char))) (minLen : Nat) :
    List.Sublist ((scoresOf sentences stoks minLen).map Prod.fst) (List.range stoks.length) := by
  unfold scoresOf
  have h := map_fst_filterMap_sublist
    (fun p => if (sentences.getD p.1 []).length < minLen then none
      else if p.2 = [] then none
      else some (p.1, scoreOf stoks.flatten p.2))
    (by
      intro p q hq
      dsimp only at hq
      split_ifs at hq with hc1 hc2
      injection hq with hq'
      rw [← hq'])
    stoks.enum
  rwa [List.enum_map_fst] at h

theorem scoresOf_mem_fst_lt (sentences : List (List Char))
    (stoks : List (List (List Char))) (minLen : Nat) (p : Nat × ℚ)
    (hp : p ∈ scoresOf sentences stoks minLen) : p.1 < stoks.length := by
  have h1 : p.1 ∈ (scoresOf sentences stoks minLen).map Prod.fst :=
    List.mem_map_of_mem Prod.fst hp
  exact List.mem_range.mp
    (List.Sublist.mem h1 (scoresOf_map_fst_sublist sentences stoks minLen))

theorem scoresOf_nodup_fst (sentences : List (List Char))
    (stoks : List (List (List Char))) (minLen : Nat) :
    ((scoresOf sentences stoks minLen).map Prod.fst).Nodup :=
  (scoresOf_map_fst_sublist sentences stoks minLen).nodup
    (List.nodup_range _)

theorem scoresOf_eq_nil_of_flatten_nil (sentences : List (List Char))
    (stoks : List (List (List Char))) (minLen : Nat)
    (hA : stoks.flatten = []) : scoresOf sentences stoks minLen = [] := by
  unfold scoresOf
  rw [List.filterMap_eq_nil_iff]
  intro p hp
  have hp2 : p.2 ∈ stoks := by
    have h := List.mem_enum_iff_getElem?.mp hp
    obtain ⟨hlt, hget⟩ := List.getElem?_eq_some_iff.mp h
    exact hget ▸ List.getElem_mem hlt
  have hnil : p.2 = [] := List.flatten_eq_nil_iff.mp hA p.2 hp2
  by_cases hc1 : (sentences.getD p.1 []).length < minLen
  · rw [if_pos hc1]
  · rw [if_neg hc1, if_pos hnil]

/-! Selection structure. -/

theorem scoredSelection_length (k : Nat) (scores : List (Nat × ℚ)) :
    (scoredSelection k scores).length = min k scores.length := by
  unfold scoredSelection sortAsc sortDesc
  rw [(List.perm_insertionSort _ _).length_eq, List.length_map,
    List.length_take, (List.perm_insertionSort _ _).length_eq]

theorem scoredSelection_sorted_lt (k : Nat) (scores : List (Nat × ℚ))
    (hnd : (scores.map Prod.fst).Nodup) :
    List.Sorted (· < ·) (scoredSelection k scores) := by
  have hsorted : List.Sorted (· ≤ ·) (scoredSelection k scores) :=
    List.sorted_insertionSort _ _
  have hnd2 : (scoredSelection k scores).Nodup := by
    have hperm : List.Perm (scoredSelection k scores)
        (((sortDesc scores).take k).map Prod.fst) :=
      List.perm_insertionSort _ _
    have hmapperm : List.Perm ((sortDesc scores).map Prod.fst)
        (scores.map Prod.fst) :=
      (List.perm_insertionSort _ _).map Prod.fst
    have hnd3 : ((sortDesc scores).map Prod.fst).Nodup :=
      hmapperm.nodup_iff.mpr hnd
    have hnd4 : (((sortDesc scores).take k).map Prod.fst).Nodup := by
      rw [List.map_take]
      exact (List.take_sublist k _).nodup hnd3
    exact hperm.nodup_iff.mpr hnd4
  exact hsorted.lt_of_le hnd2

theorem scoredSelection_mem (k : Nat) (scores : List (Nat × ℚ)) (i : Nat)
    (h : i ∈ scoredSelection k scores) : ∃ x, (i, x) ∈ scores := by
  have hperm : List.Perm (scoredSelection k scores)
      (((sortDesc scores).take k).map Prod.fst) :=
    List.perm_insertionSort _ _
  have h1 : i ∈ ((sortDesc scores).take k).map Prod.fst :=
    hperm.mem_iff.mp h
  obtain ⟨p, hpm, hpi⟩ := List.mem_map.mp h1
  subst hpi
  have h2 : p ∈ sortDesc scores := List.Sublist.mem hpm (List.take_sublist k _)
  have h3 : p ∈ scores := (List.perm_insertionSort _ _).mem_iff.mp h2
  exact ⟨p.2, by rwa [Prod.mk.eta]⟩

/-- The selected indices of the full pipeline: the first k indices on
the two fallback paths, the scored selection otherwise. -/
theorem fullPipeline_selected_eq (svc : AIService) (lang : String)
    (sentences : List (List Char)) (maxS : Int) ( r : ℚ) (minLen : Nat) :
    (fullPipeline svc lang sentences maxS r minLen).selected_indices =
      if (stoksOf svc lang sentences).flatten = [] ∨
          scoresOf sentences (stoksOf svc lang sentences) minLen = []
      then List.range (kOf sentences.length maxS r)
      else scoredSelection (kOf sentences.length maxS r)
        (scoresOf sentences (stoksOf svc lang sentences) minLen) := by
  by_cases hA : (stoksOf svc lang sentences).flatten = []
  · rw [if_pos (Or.inl hA)]
    simp only [fullPipeline]
    rw [if_pos hA]
  · by_cases hS : scoresOf sentences (stoksOf svc lang sentences) minLen = []
    · rw [if_pos (Or.inr hS)]
      simp only [fullPipeline]
      rw [if_neg hA, if_pos hS]
    · rw [if_neg (not_or.mpr ⟨hA, hS⟩)]
      simp only [fullPipeline]
      rw [if_neg hA, if_neg hS]

/-! The checked pipeline against the total one. -/

theorem getSentences_eq_map (sentences : List (List Char)) :
    ∀ idxs : List Nat, (∀ i ∈ idxs, i < sentences.length) →
    getSentences sentences idxs =
      some (idxs.map (fun i => sentences.getD i [])) := by
  intro idxs
  induction idxs with
  | nil => intro _; rfl
  | cons i is ih =>
    intro h
    have hi : i < sentences.length := h i (List.mem_cons_self _ _)
    have hrest := ih (fun j hj => h j (List.mem_cons_of_mem _ hj))
    simp only [getSentences, List.getElem?_eq_getElem hi, hrest, List.map_cons]
    rw [List.getD_eq_getElem sentences [] hi]

theorem getSentences_some_bound (sentences : List (List Char)) :
    ∀ (idxs : List Nat) (ls : List (List Char)),
    getSentences sentences idxs = some ls → ∀ i ∈ idxs, i < sentences.length := by
  intro idxs
  induction idxs with
  | nil => intro ls _ i hi; simp at hi
  | cons i is ih =>
    intro ls h j hj
    cases hgi : sentences[i]? with
    | none => rw [getSentences, hgi] at h; exact absurd h (by simp)
    | some s =>
      cases hrest : getSentences sentences is with
      | none => rw [getSentences, hgi, hrest] at h; exact absurd h (by simp)
      | some rest =>
        rcases List.mem_cons.mp hj with rfl | hjs
        · exact (List.getElem?_eq_some_iff.mp hgi).1
        · exact ih rest hrest j hjs

theorem fullPipelineChecked_refines (svc : AIService) (lang : String)
    (sentences : List (List Char)) (maxS : Int) ( r : ℚ) (minLen : Nat)
    (res : SummaryResult)
    (h : fullPipelineChecked svc lang sentences maxS r minLen = some res) :
    res = fullPipeline svc lang sentences maxS r minLen := by
  simp only [fullPipelineChecked] at h
  by_cases hA : (stoksOf svc lang sentences).flatten = []
  · rw [if_pos hA] at h
    injection h with h
    subst h
    simp only [fullPipeline]
    rw [if_pos hA]
  · rw [if_neg hA] at h
    cases hg : getSentences sentences
        (if scoresOf sentences (stoksOf svc lang sentences) minLen = []
          then List.range (kOf sentences.length maxS r)
          else scoredSelection (kOf sentences.length maxS r)
            (scoresOf sentences (stoksOf svc lang sentences) minLen)) with
    | none => rw [hg] at h; exact absurd h (by simp)
    | some picked =>
      rw [hg] at h
      injection h with h
      subst h
      have hb := getSentences_some_bound sentences _ picked hg
      rw [getSentences_eq_map sentences _ hb] at hg
      injection hg with hg
      subst hg
      by_cases hS : scoresOf sentences (stoksOf svc lang sentences) minLen = []
      · rw [if_pos hS]
        simp only [fullPipeline]
        rw [if_neg hA, if_pos hS]
      · rw [if_neg hS]
        simp only [fullPipeline]
        rw [if_neg hA, if_neg hS]

theorem fullPipelineChecked_total (svc : AIService) (lang : String)
    (sentences : List (List Char)) (maxS : Int) ( r : ℚ) (minLen : Nat)
    (hr1 : r ≤ 1) (hn : 1 ≤ sentences.length) :
    fullPipelineChecked svc lang sentences maxS r minLen =
      some (fullPipeline svc lang sentences maxS r minLen) := by
  simp only [fullPipelineChecked]
  by_cases hA : (stoksOf svc lang sentences).flatten = []
  · rw [if_pos hA]
    simp only [fullPipeline]
    rw [if_pos hA]
  · rw [if_neg hA]
    have hbound : ∀ i ∈ (if scoresOf sentences (stoksOf svc lang sentences) minLen = []
        then List.range (kOf sentences.length maxS r)
        else scoredSelection (kOf sentences.length maxS r)
          (scoresOf sentences (stoksOf svc lang sentences) minLen)),
        i < sentences.length := by
      intro i hi
      split_ifs at hi with hS
      · exact lt_of_lt_of_le (List.mem_range.mp hi) (kOf_le_n _ maxS r hr1 hn)
      · obtain ⟨x, hx⟩ := scoredSelection_mem _ _ i hi
        have := scoresOf_mem_fst_lt _ _ _ (i, x) hx
        rwa [stoksOf, List.length_map] at this
    rw [getSentences_eq_map sentences _ hbound]
    by_cases hS : scoresOf sentences (stoksOf svc lang sentences) minLen = []
    · rw [if_pos hS]
      simp only [fullPipeline]
      rw [if_neg hA, if_pos hS]
    · rw [if_neg hS]
      simp only [fullPipeline]
      rw [if_neg hA, if_neg hS]

theorem summarizeChecked_empty_branch (svc : AIService)
    (text : Option (List Char)) (maxS : Int) ( r : ℚ) (minLen : Nat)
    (h : _normalize_whitespace (text.getD []) = []) :
    summarizeChecked svc text maxS r minLen =
      some { summary := [],
             language := if _has_arabic (text.getD []) then "ar" else "en",
             selected_indices := [], sentences_count := 0 } := by
  simp only [summarizeChecked]
  rw [if_pos h]

theorem summarizeChecked_short_branch (svc : AIService)
    (text : Option (List Char)) (maxS : Int) ( r : ℚ) (minLen : Nat)
    (h1 : _normalize_whitespace (text.getD []) ≠ [])
    (h2 : (_split_sentences (_normalize_whitespace (text.getD []))).length ≤ 2 ∨
      (_normalize_whitespace (text.getD [])).length < 200) :
    summarizeChecked svc text maxS r minLen =
      some { summary := _normalize_whitespace (text.getD []),
             language := if _has_arabic (_normalize_whitespace (text.getD []))
               then "ar" else "en",
             selected_indices :=
               List.range
                 (_split_sentences (_normalize_whitespace (text.getD []))).length,
             sentences_count :=
               (_split_sentences (_normalize_whitespace (text.getD []))).length } := by
  simp only [summarizeChecked]
  rw [if_neg h1, if_neg (split_norm_ne_nil _ h1), if_pos h2]

theorem summarizeChecked_full_branch (svc : AIService)
    (text : Option (List Char)) (maxS : Int) ( r : ℚ) (minLen : Nat)
    (h1 : _normalize_whitespace (text.getD []) ≠ [])
    (h2 : ¬((_split_sentences (_normalize_whitespace (text.getD []))).length ≤ 2 ∨
      (_normalize_whitespace (text.getD [])).length < 200)) :
    summarizeChecked svc text maxS r minLen =
      fullPipelineChecked svc
        (if _has_arabic (_normalize_whitespace (text.getD [])) then "ar" else "en")
        (_split_sentences (_normalize_whitespace (text.getD [])))
        maxS r minLen := by
  simp only [summarizeChecked]
  rw [if_neg h1, if_neg (split_norm_ne_nil _ h1), if_neg h2]

/-- Wherever the program returns a record at all, that record is the
one computed by the total model. -/
theorem summarizeChecked_refines (svc : AIService) (text : Option (List Char))
    (maxS : Int) ( r : ℚ) (minLen : Nat) (res : SummaryResult)
    (h : summarizeChecked svc text maxS r minLen = some res) :
    res = AIService.summarize svc text maxS r minLen := by
  by_cases h1 : _normalize_whitespace (text.getD []) = []
  · rw [summarizeChecked_empty_branch svc text maxS r minLen h1] at h
    injection h with h
    rw [summarize_empty_branch svc text maxS r minLen h1, ← h]
  · by_cases h2 : (_split_sentences (_normalize_whitespace (text.getD []))).length ≤ 2 ∨
        (_normalize_whitespace (text.getD [])).length < 200
    · rw [summarizeChecked_short_branch svc text maxS r minLen h1 h2] at h
      injection h with h
      rw [summarize_short_branch svc text maxS r minLen h1 h2, ← h]
    · rw [summarizeChecked_full_branch svc text maxS r minLen h1 h2] at h
      rw [summarize_full_branch svc text maxS r minLen h1 h2]
      exact fullPipelineChecked_refines svc _ _ maxS r minLen res h

/-! Claim C3. -/

/-- A sixteen-sentence input of 223 normalized characters whose every
sentence is shorter than 30 characters yet carries kept tokens, so
scoring skips every sentence while the token multiset is non-empty. -/
def c3Input : List Char :=
  ("abcdefgh now. abcdefgh now. abcdefgh now. abcdefgh now. abcdefgh now. abcdefgh now. abcdefgh now. abcdefgh now. abcdefgh now. abcdefgh now. abcdefgh now. abcdefgh now. abcdefgh now. abcdefgh now. abcdefgh now. abcdefgh now.").toList

set_option maxHeartbeats 1000000 in
set_option maxRecDepth 10000 in
/-- Counterexample to C3 as stated: summarize is not total.  At
c3Input with max_sentences 20 and ratio 5, every sentence is too short
to score, so the fallback of ai_service.py lines 138-139 selects the
first k = 20 indices and line 145 indexes sentences[16] out of range:
the program raises IndexError, modelled as none. -/
theorem C3_counterexample :
    summarizeChecked defaultService (some c3Input) 20 5 30 = none := by
  with_unfolding_all decide

/-- C3 amended: with ratio at most 1 (in particular at its default of
0.25) summarize never raises and returns the well-formed record of
the total model for every input and every max_sentences and
min_sentence_len; in particular the null text and the empty text
yield the empty summary, no selected indices, a zero sentence count,
and language en.  (For ratio above 1, the score-less fallback can
index past the sentence list and raise IndexError.) -/
theorem C3_total_under_unit_ratio :
    (∀ (svc : AIService) (text : Option (List Char)) (maxS : Int)
      ( r : ℚ) (minLen : Nat), r ≤ 1 →
      summarizeChecked svc text maxS r minLen =
        some (AIService.summarize svc text maxS r minLen)) ∧
    summarizeChecked defaultService none 3 (1/4) 30 =
      some { summary := [], language := "en", selected_indices := [],
             sentences_count := 0 } ∧
    summarizeChecked defaultService (some []) 3 (1/4) 30 =
      some { summary := [], language := "en", selected_indices := [],
             sentences_count := 0 } := by
  refine ⟨?_, rfl, rfl⟩
  intro svc text maxS r minLen hr1
  by_cases h1 : _normalize_whitespace (text.getD []) = []
  · rw [summarizeChecked_empty_branch svc text maxS r minLen h1,
      summarize_empty_branch svc text maxS r minLen h1]
  · by_cases h2 : (_split_sentences (_normalize_whitespace (text.getD []))).length ≤ 2 ∨
        (_normalize_whitespace (text.getD [])).length < 200
    · rw [summarizeChecked_short_branch svc text maxS r minLen h1 h2,
        summarize_short_branch svc text maxS r minLen h1 h2]
    · rw [summarizeChecked_full_branch svc text maxS r minLen h1 h2,
        summarize_full_branch svc text maxS r minLen h1 h2]
      have hn : 1 ≤ (_split_sentences (_normalize_whitespace (text.getD []))).length := by
        rcases not_or.mp h2 with ⟨hgt, _⟩
        omega
      exact fullPipelineChecked_total svc _ _ maxS r minLen hr1 hn

/-- Witness for the amended C3 at a concrete input with the default
ratio. -/
theorem C3_total_under_unit_ratio_witness :
    summarizeChecked defaultService (some (("hi").toList)) 3 (1/4) 30 =
      some (AIService.summarize defaultService (some (("hi").toList))
        3 (1/4) 30) :=
  C3_total_under_unit_ratio.1 defaultService (some (("hi").toList))
    3 (1/4) 30 (by norm_num)

/-! Claim C1. -/

/-- A five-sentence English input, 242 characters after normalization,
whose every sentence is at least 30 characters and carries scored
tokens. -/
def kInput : List Char :=
  ("mountain rivers flowing across green valley. sunset painters sketch golden harbor walls today. ancient castles guard silent northern borders still. gentle breezes carry autumn leaves toward town. winter storms batter rocky shores every night.").toList

/-- The selection target exactly as the claim words it, with a ceiling
of the sentence count times the ratio. -/
def kClaimCeil (n : Nat) (max_sentences : Int) ( ratio : ℚ) : Nat :=
  (max 1 (min max_sentences ⌈(n : ℚ) * ratio⌉)).toNat

set_option maxHeartbeats 1000000 in
set_option maxRecDepth 10000 in
/-- Counterexample to C1 as stated: kInput is routed through the full
pipeline (non-empty normalization, five sentences, 242 characters),
the ceiling formula of the claim gives K = 2 with the default
parameters, and at least 2 sentences receive a score, yet summarize
selects exactly 1 sentence: the code truncates n times ratio instead
of taking its ceiling. -/
theorem C1_counterexample :
    (_normalize_whitespace kInput ≠ [] ∧
      ¬((_split_sentences (_normalize_whitespace kInput)).length ≤ 2 ∨
        (_normalize_whitespace kInput).length < 200)) ∧
    (_split_sentences (_normalize_whitespace kInput)).length = 5 ∧
    kClaimCeil 5 3 (1/4) = 2 ∧
    2 ≤ (scoresOf (_split_sentences (_normalize_whitespace kInput))
      (stoksOf defaultService "en"
        (_split_sentences (_normalize_whitespace kInput))) 30).length ∧
    (AIService.summarize defaultService (some kInput)
      3 (1/4) 30).selected_indices.length = 1 := by
  with_unfolding_all decide

/-- C1 amended: on the full pipeline the selection target is
K = max(1, min(max_sentences, floor(max(1, n times ratio)))) — the
code truncates the product rather than rounding it up — and whenever
at least K sentences receive a score, exactly K indices are selected. -/
theorem C1_selection_count (svc : AIService) (text : Option (List Char))
    (maxS : Int) ( r : ℚ) (minLen : Nat)
    (h1 : _normalize_whitespace (text.getD []) ≠ [])
    (h2 : ¬((_split_sentences (_normalize_whitespace (text.getD []))).length ≤ 2 ∨
      (_normalize_whitespace (text.getD [])).length < 200))
    (h3 : kOf (_split_sentences (_normalize_whitespace (text.getD []))).length maxS r ≤
      (scoresOf (_split_sentences (_normalize_whitespace (text.getD [])))
        (stoksOf svc
          (if _has_arabic (_normalize_whitespace (text.getD [])) then "ar" else "en")
          (_split_sentences (_normalize_whitespace (text.getD [])))) minLen).length) :
    (AIService.summarize svc text maxS r minLen).selected_indices.length =
      kOf (_split_sentences (_normalize_whitespace (text.getD []))).length maxS r := by
  rw [summarize_full_branch svc text maxS r minLen h1 h2, fullPipeline_selected_eq]
  have hS : scoresOf (_split_sentences (_normalize_whitespace (text.getD [])))
      (stoksOf svc
        (if _has_arabic (_normalize_whitespace (text.getD [])) then "ar" else "en")
        (_split_sentences (_normalize_whitespace (text.getD [])))) minLen ≠ [] := by
    intro hnil
    rw [hnil] at h3
    have := kOf_pos (_split_sentences (_normalize_whitespace (text.getD []))).length maxS r
    simp at h3
    omega
  have hA : (stoksOf svc
      (if _has_arabic (_normalize_whitespace (text.getD [])) then "ar" else "en")
      (_split_sentences (_normalize_whitespace (text.getD [])))).flatten ≠ [] :=
    fun hnil => hS (scoresOf_eq_nil_of_flatten_nil _ _ _ hnil)
  rw [if_neg (not_or.mpr ⟨hA, hS⟩), scoredSelection_length]
  exact min_eq_left h3

set_option maxHeartbeats 1000000 in
set_option maxRecDepth 10000 in
/-- Witness for the amended C1 at kInput with default parameters:
the truncated target is 1 and exactly 1 index is selected. -/
theorem C1_selection_count_witness :
    (AIService.summarize defaultService (some kInput)
      3 (1/4) 30).selected_indices.length =
      kOf (_split_sentences (_normalize_whitespace kInput)).length 3 (1/4) :=
  C1_selection_count defaultService (some kInput) 3 (1/4) 30
    (by with_unfolding_all decide)
    (by with_unfolding_all decide)
    (by with_unfolding_all decide)

/-! Claim C5. -/

/-- C5: for inputs routed through the full pipeline with
max_sentences at least 1 and ratio in the unit interval, the selection
has at least one index and at most min(max_sentences, sentences_count)
of them; the target k is never 0 and never exceeds the sentence count. -/
theorem C5_selection_bounds (svc : AIService) (text : Option (List Char))
    (maxS : Int) ( r : ℚ) (minLen : Nat)
    (hms : 1 ≤ maxS) (hr0 : 0 < r) (hr1 : r ≤ 1)
    (h1 : _normalize_whitespace (text.getD []) ≠ [])
    (h2 : ¬((_split_sentences (_normalize_whitespace (text.getD []))).length ≤ 2 ∨
      (_normalize_whitespace (text.getD [])).length < 200)) :
    1 ≤ (AIService.summarize svc text maxS r minLen).selected_indices.length ∧
    (AIService.summarize svc text maxS r minLen).selected_indices.length ≤
      min maxS.toNat
        (AIService.summarize svc text maxS r minLen).sentences_count := by
  rw [summarize_full_branch svc text maxS r minLen h1 h2]
  have hn : 1 ≤ (_split_sentences (_normalize_whitespace (text.getD []))).length := by
    rcases not_or.mp h2 with ⟨hgt, _⟩
    omega
  generalize (if _has_arabic (_normalize_whitespace (text.getD []))
    then "ar" else "en") = lang
  rw [fullPipeline_count, fullPipeline_selected_eq]
  have hk1 := kOf_pos
    (_split_sentences (_normalize_whitespace (text.getD []))).length maxS r
  have hk2 := kOf_le_maxS
    (_split_sentences (_normalize_whitespace (text.getD []))).length maxS r hms
  have hk3 := kOf_le_n
    (_split_sentences (_normalize_whitespace (text.getD []))).length maxS r hr1 hn
  split_ifs with hif
  · rw [List.length_range]
    exact ⟨hk1, le_min hk2 hk3⟩
  · rw [scoredSelection_length]
    rcases not_or.mp hif with ⟨_, hSne⟩
    refine ⟨le_min hk1 (List.length_pos.mpr hSne), ?_⟩
    exact le_trans (min_le_left _ _) (le_min hk2 hk3)

set_option maxHeartbeats 1000000 in
set_option maxRecDepth 10000 in
/-- Witness for C5 at kInput with the default parameters. -/
theorem C5_selection_bounds_witness :
    1 ≤ (AIService.summarize defaultService (some kInput)
      3 (1/4) 30).selected_indices.length ∧
    (AIService.summarize defaultService (some kInput)
      3 (1/4) 30).selected_indices.length ≤
      min (Int.toNat 3)
        (AIService.summarize defaultService (some kInput)
          3 (1/4) 30).sentences_count :=
  C5_selection_bounds defaultService (some kInput) 3 (1/4) 30
    (by decide) (by norm_num) (by norm_num)
    (by with_unfolding_all decide)
    (by with_unfolding_all decide)

/-! Claim C6. -/

/-- A nine-sentence input of 224 characters whose every word is either
a stopword or at most two characters long, so that token filtering
leaves nothing. -/
def rangeInput : List Char :=
  ("it is it is it is it is. it is it is it is it is. it is it is it is it is. it is it is it is it is. it is it is it is it is. it is it is it is it is. it is it is it is it is. it is it is it is it is. it is it is it is it is.").toList

set_option maxHeartbeats 1000000 in
set_option maxRecDepth 10000 in
/-- Counterexample to C6 as stated: with max_sentences 10 and ratio 5,
rangeInput reaches the empty-token fallback, which returns the first
k = 10 indices while only 9 sentences exist, so the selected index 9
is not below sentences_count. -/
theorem C6_counterexample :
    (AIService.summarize defaultService (some rangeInput)
      10 5 30).sentences_count = 9 ∧
    9 ∈ (AIService.summarize defaultService (some rangeInput)
      10 5 30).selected_indices := by
  with_unfolding_all decide

/-- C6 amended: for every input and every parameter setting the
selected indices are strictly ascending, hence unique and nonnegative;
and whenever ratio is at most 1 every selected index is below
sentences_count.  (As stated the claim fails: a ratio above 1 can push
the fallback target k beyond the sentence count.) -/
theorem C6_selected_ascending (svc : AIService) (text : Option (List Char))
    (maxS : Int) ( r : ℚ) (minLen : Nat) :
    List.Sorted (· < ·)
      (AIService.summarize svc text maxS r minLen).selected_indices ∧
    ( r ≤ 1 → ∀ i ∈ (AIService.summarize svc text maxS r minLen).selected_indices,
      i < (AIService.summarize svc text maxS r minLen).sentences_count) := by
  by_cases h1 : _normalize_whitespace (text.getD []) = []
  · rw [summarize_empty_branch svc text maxS r minLen h1]
    exact ⟨List.sorted_nil, fun _ i hi => by simp at hi⟩
  · by_cases h2 : (_split_sentences (_normalize_whitespace (text.getD []))).length ≤ 2 ∨
        (_normalize_whitespace (text.getD [])).length < 200
    · rw [summarize_short_branch svc text maxS r minLen h1 h2]
      exact ⟨List.pairwise_lt_range _, fun _ i hi => List.mem_range.mp hi⟩
    · rw [summarize_full_branch svc text maxS r minLen h1 h2]
      have hn : 1 ≤ (_split_sentences (_normalize_whitespace (text.getD []))).length := by
        rcases not_or.mp h2 with ⟨hgt, _⟩
        omega
      generalize (if _has_arabic (_normalize_whitespace (text.getD []))
        then "ar" else "en") = lang
      rw [fullPipeline_count, fullPipeline_selected_eq]
      split_ifs with hif
      · refine ⟨List.pairwise_lt_range _, fun hr1 i hi => ?_⟩
        exact lt_of_lt_of_le (List.mem_range.mp hi)
          (kOf_le_n _ maxS r hr1 hn)
      · rcases not_or.mp hif with ⟨_, hSne⟩
        refine ⟨scoredSelection_sorted_lt _ _ (scoresOf_nodup_fst _ _ _), ?_⟩
        intro _ i hi
        obtain ⟨x, hx⟩ := scoredSelection_mem _ _ i hi
        have := scoresOf_mem_fst_lt _ _ _ (i, x) hx
        rwa [stoksOf, List.length_map] at this

/-- Witness for the amended C6: at rangeInput with ratio 1/4 the
hypothesis of the bound clause is discharged and every selected index
is below the sentence count. -/
theorem C6_selected_ascending_witness :
    ((1 : ℚ)/4 ≤ 1) ∧
    (∀ i ∈ (AIService.summarize defaultService (some rangeInput)
        10 (1/4) 30).selected_indices,
      i < (AIService.summarize defaultService (some rangeInput)
        10 (1/4) 30).sentences_count) :=
  ⟨by norm_num,
   (C6_selected_ascending defaultService (some rangeInput) 10 (1/4) 30).2
     (by norm_num)⟩

/-! Claim C2. -/

/-- C2: on non-empty normalized input with at most two sentences or
fewer than 200 normalized characters, summarize returns precisely the
whole normalized text as summary, every index in ascending order, and
the segmented sentence count, with no scoring performed. -/
theorem C2_short_circuit (svc : AIService) (text : Option (List Char))
    (maxS : Int) ( r : ℚ) (minLen : Nat)
    (h1 : _normalize_whitespace (text.getD []) ≠ [])
    (h2 : (_split_sentences (_normalize_whitespace (text.getD []))).length ≤ 2 ∨
      (_normalize_whitespace (text.getD [])).length < 200) :
    AIService.summarize svc text maxS r minLen =
      { summary := _normalize_whitespace (text.getD []),
        language := if _has_arabic (_normalize_whitespace (text.getD []))
          then "ar" else "en",
        selected_indices :=
          List.range (_split_sentences (_normalize_whitespace (text.getD []))).length,
        sentences_count :=
          (_split_sentences (_normalize_whitespace (text.getD []))).length } :=
  summarize_short_branch svc text maxS r minLen h1 h2

set_option maxRecDepth 10000 in
/-- Witness for C2 at a concrete one-sentence input. -/
theorem C2_short_circuit_witness :
    AIService.summarize defaultService (some (("Hello there.").toList))
      3 (1/4) 30 =
      { summary := ("Hello there.").toList, language := "en",
        selected_indices := [0], sentences_count := 1 } := by
  rw [C2_short_circuit defaultService (some (("Hello there.").toList))
    3 (1/4) 30 (by decide) (by decide)]
  decide

/-! Claim C9. -/

theorem foldr_max_le_mem (xs : List Nat) (a : Nat) (h : a ∈ xs) :
    a ≤ xs.foldr max 0 := by
  induction xs with
  | nil => simp at h
  | cons x t ih =>
    rw [List.foldr_cons]
    rcases List.mem_cons.mp h with rfl | hmem
    · exact le_max_left _ _
    · exact le_trans (ih hmem) (le_max_right _ _)

theorem count_le_maxFreq (toks : List (List Char)) (t : List Char)
    (h : t ∈ toks) : toks.count t ≤ maxFreq toks := by
  unfold maxFreq
  rw [if_neg (List.ne_nil_of_mem h)]
  exact foldr_max_le_mem _ _
    (List.mem_map_of_mem _ (List.mem_dedup.mpr h))

theorem maxFreq_pos (toks : List (List Char)) (h : toks ≠ []) :
    0 < maxFreq toks := by
  obtain ⟨x, hx⟩ := List.exists_mem_of_ne_nil toks h
  exact lt_of_lt_of_le (List.count_pos_iff.mpr hx) (count_le_maxFreq toks x hx)

theorem weightOf_pos_le_one (allToks : List (List Char)) (t : List Char)
    (ht : t ∈ allToks) :
    0 < weightOf allToks t ∧ weightOf allToks t ≤ 1 := by
  unfold weightOf
  have hc : 0 < allToks.count t := List.count_pos_iff.mpr ht
  have hm : 0 < maxFreq allToks := maxFreq_pos _ (List.ne_nil_of_mem ht)
  constructor
  · exact div_pos (by exact_mod_cast hc) (by exact_mod_cast hm)
  · rw [div_le_one (by exact_mod_cast hm)]
    exact_mod_cast count_le_maxFreq allToks t ht

theorem weightOf_max_eq_one (allToks : List (List Char)) (t : List Char)
    (ht : t ∈ allToks) (h : allToks.count t = maxFreq allToks) :
    weightOf allToks t = 1 := by
  unfold weightOf
  rw [h]
  exact div_self (by exact_mod_cast (maxFreq_pos _ (List.ne_nil_of_mem ht)).ne')

theorem scoresOf_mem_iff (sentences : List (List Char))
    (stoks : List (List (List Char))) (minLen : Nat) (idx : Nat) (x : ℚ) :
    (idx, x) ∈ scoresOf sentences stoks minLen ↔
      ∃ toks, stoks[idx]? = some toks ∧
        ¬((sentences.getD idx []).length < minLen) ∧ toks ≠ [] ∧
        x = scoreOf stoks.flatten toks := by
  unfold scoresOf
  rw [List.mem_filterMap]
  constructor
  · rintro ⟨p, hp, hfp⟩
    split_ifs at hfp with hc1 hc2
    injection hfp with h'
    have h1 : p.1 = idx := congrArg Prod.fst h'
    have h2 : scoreOf stoks.flatten p.2 = x := congrArg Prod.snd h'
    refine ⟨p.2, ?_, h1 ▸ hc1, hc2, h2.symm⟩
    rw [← h1]
    exact List.mem_enum_iff_getElem?.mp hp
  · rintro ⟨toks, hget, hlen, hne, hx⟩
    subst hx
    refine ⟨(idx, toks), List.mem_enum_iff_getElem?.mpr hget, ?_⟩
    show (if (sentences.getD idx []).length < minLen then none
      else if toks = [] then none
      else some (idx, scoreOf stoks.flatten toks)) =
      some (idx, scoreOf stoks.flatten toks)
    rw [if_neg hlen, if_neg hne]

/-- C9: when the flattened token multiset of the pipeline is
non-empty, every token weight (raw count over maximal count) is
positive and at most 1, tokens whose count attains the maximum weigh
exactly 1, a sentence index carries a score exactly when the sentence
is at least min_sentence_len characters long and kept tokens, that
score being the mean of its token weights, and on the scored path only
scored sentences can be selected. -/
theorem C9_weights_and_scores (svc : AIService) (lang : String)
    (sentences : List (List Char)) (maxS : Int) ( r : ℚ) (minLen : Nat)
    (hA : (stoksOf svc lang sentences).flatten ≠ []) :
    (∀ t ∈ (stoksOf svc lang sentences).flatten,
      (0 < weightOf (stoksOf svc lang sentences).flatten t ∧
        weightOf (stoksOf svc lang sentences).flatten t ≤ 1) ∧
      ((stoksOf svc lang sentences).flatten.count t =
          maxFreq (stoksOf svc lang sentences).flatten →
        weightOf (stoksOf svc lang sentences).flatten t = 1)) ∧
    (∀ idx, idx < sentences.length → ∀ x : ℚ,
      ((idx, x) ∈ scoresOf sentences (stoksOf svc lang sentences) minLen ↔
        (minLen ≤ (sentences.getD idx []).length ∧
          filteredTokens (stopwordsFor svc lang) (sentences.getD idx []) ≠ [] ∧
          x = scoreOf (stoksOf svc lang sentences).flatten
            (filteredTokens (stopwordsFor svc lang) (sentences.getD idx []))))) ∧
    (∀ i ∈ (fullPipeline svc lang sentences maxS r minLen).selected_indices,
      scoresOf sentences (stoksOf svc lang sentences) minLen ≠ [] →
      ∃ x : ℚ, (i, x) ∈ scoresOf sentences (stoksOf svc lang sentences) minLen) := by
  refine ⟨?_, ?_, ?_⟩
  · intro t ht
    exact ⟨weightOf_pos_le_one _ t ht, weightOf_max_eq_one _ t ht⟩
  · intro idx hidx x
    rw [scoresOf_mem_iff]
    have hget : (stoksOf svc lang sentences)[idx]? =
        some (filteredTokens (stopwordsFor svc lang) (sentences.getD idx [])) := by
      unfold stoksOf
      rw [List.getElem?_map, List.getElem?_eq_getElem hidx]
      rw [List.getD_eq_getElem sentences [] hidx]
      rfl
    constructor
    · rintro ⟨toks, hget2, hlen, hne, hx⟩
      rw [hget] at hget2
      injection hget2 with hget2
      subst hget2
      exact ⟨not_lt.mp hlen, hne, hx⟩
    · rintro ⟨hlen, hne, hx⟩
      exact ⟨_, hget, not_lt.mpr hlen, hne, hx⟩
  · intro i hi hS
    rw [fullPipeline_selected_eq, if_neg (not_or.mpr ⟨hA, hS⟩)] at hi
    exact scoredSelection_mem _ _ i hi

/-- A one-sentence input whose filtered tokens are non-empty, for the
C9 witness. -/
def scoreSent : List Char := ("alpha beta gamma delta epsilon zeta").toList

set_option maxRecDepth 10000 in
/-- Witness for C9: at a concrete one-sentence document the weight of
a present token is positive and at most one. -/
theorem C9_weights_and_scores_witness :
    0 < weightOf (stoksOf defaultService "en" [scoreSent]).flatten
      (("alpha").toList) ∧
    weightOf (stoksOf defaultService "en" [scoreSent]).flatten
      (("alpha").toList) ≤ 1 :=
  (C9_weights_and_scores defaultService "en" [scoreSent] 3 (1/4) 30
    (by decide)).1 (("alpha").toList) (by decide) |>.1

/-! Claim C8. -/

theorem runsAux_mem_ne_nil (p : Char → Bool) :
    ∀ (l acc : List Char) (r : List Char), r ∈ runsAux p acc l → r ≠ [] := by
  intro l
  induction l with
  | nil =>
    intro acc r hr
    by_cases hacc : acc.isEmpty
    · simp [runsAux, hacc] at hr
    · simp only [runsAux, if_neg hacc, List.mem_singleton] at hr
      subst hr
      simpa [List.isEmpty_iff] using
        fun h => hacc (by simp [List.isEmpty_iff, ← List.reverse_eq_nil_iff, h])
  | cons c cs ih =>
    intro acc r hr
    by_cases hp : p c = true
    · rw [show runsAux p acc (c :: cs) = runsAux p (c :: acc) cs by
        simp [runsAux, hp]] at hr
      exact ih (c :: acc) r hr
    · by_cases hacc : acc.isEmpty
      · rw [show runsAux p acc (c :: cs) = runsAux p [] cs by
          simp [runsAux, hp, hacc]] at hr
        exact ih [] r hr
      · rw [show runsAux p acc (c :: cs) = acc.reverse :: runsAux p [] cs by
          simp [runsAux, hp, hacc]] at hr
        rcases List.mem_cons.mp hr with rfl | hmem
        · simpa [List.isEmpty_iff] using
            fun h => hacc (by simp [List.isEmpty_iff, ← List.reverse_eq_nil_iff, h])
        · exact ih [] r hmem

theorem runsAux_cons_pos (p : Char → Bool) {c : Char} (acc cs : List Char)
    (hp : p c = true) : runsAux p acc (c :: cs) = runsAux p (c :: acc) cs := by
  simp [runsAux, hp]

theorem runsAux_cons_neg_nil (p : Char → Bool) {c : Char} (cs : List Char)
    (hp : ¬p c = true) : runsAux p [] (c :: cs) = runsAux p [] cs := by
  simp [runsAux, hp]

theorem runsAux_cons_neg_cons (p : Char → Bool) {c x : Char}
    (xs cs : List Char) (hp : ¬p c = true) :
    runsAux p (x :: xs) (c :: cs) = (x :: xs).reverse :: runsAux p [] cs := by
  simp [runsAux, hp]

theorem splitOnP_go_nil (p : Char → Bool) (acc : List Char) :
    List.splitOnP.go (fun c => !p c) [] acc = [acc.reverse] := by
  simp [List.splitOnP.go]

theorem splitOnP_go_cons_keep (p : Char → Bool) {c : Char}
    (cs acc : List Char) (hp : p c = true) :
    List.splitOnP.go (fun c => !p c) (c :: cs) acc =
      List.splitOnP.go (fun c => !p c) cs (c :: acc) := by
  simp [List.splitOnP.go, hp]

theorem splitOnP_go_cons_sep (p : Char → Bool) {c : Char}
    (cs acc : List Char) (hp : ¬p c = true) :
    List.splitOnP.go (fun c => !p c) (c :: cs) acc =
      acc.reverse :: List.splitOnP.go (fun c => !p c) cs [] := by
  simp [List.splitOnP.go, hp]

theorem filter_singleton_ne_nil (r : List Char) (h : r ≠ []) :
    List.filter (fun r => !r.isEmpty) [r] = [r] := by
  obtain ⟨y, ys, hy⟩ := List.exists_cons_of_ne_nil h
  subst hy
  rfl

theorem runsAux_eq_splitOnP (p : Char → Bool) :
    ∀ (l acc : List Char),
    runsAux p acc l =
      (List.splitOnP.go (fun c => !p c) l acc).filter (fun r => !r.isEmpty) := by
  intro l
  induction l with
  | nil =>
    intro acc
    rw [splitOnP_go_nil]
    cases acc with
    | nil => rfl
    | cons x xs =>
      rw [show runsAux p (x :: xs) [] = [(x :: xs).reverse] from by
        simp [runsAux]]
      rw [filter_singleton_ne_nil _ (by simp)]
  | cons c cs ih =>
    intro acc
    by_cases hp : p c = true
    · rw [runsAux_cons_pos p acc cs hp, splitOnP_go_cons_keep p cs acc hp]
      exact ih (c :: acc)
    · rw [splitOnP_go_cons_sep p cs acc hp]
      cases acc with
      | nil =>
        rw [runsAux_cons_neg_nil p cs hp, List.filter_cons]
        simp only [List.reverse_nil, List.isEmpty_nil, Bool.not_true,
          Bool.false_eq_true, if_neg]
        exact ih []
      | cons x xs =>
        rw [runsAux_cons_neg_cons p xs cs hp, List.filter_cons]
        have hne : ((x :: xs).reverse.isEmpty = false) := by
          obtain ⟨y, ys, hy⟩ := List.exists_cons_of_ne_nil
            (show (x :: xs).reverse ≠ [] by simp)
          rw [hy]
          rfl
        rw [hne]
        simp only [Bool.not_false, if_pos]
        rw [ih []]

/-- The tokenizer character class exactly as the claim words it:
ASCII digits only, plus basic Latin letters, the extended Latin letter
ranges, and Arabic letters. -/
def claimWordChar (c : Char) : Bool :=
  let n := c.toNat
  (0x30 ≤ n && n ≤ 0x39) || (0x41 ≤ n && n ≤ 0x5A) || (0x61 ≤ n && n ≤ 0x7A) ||
  (0xC0 ≤ n && n ≤ 0xD6) || (0xD8 ≤ n && n ≤ 0xF6) ||
  (0xF8 ≤ n && n ≤ 0xFF) || isArabicChar c

/-- Token extraction exactly as the claim words it: the maximal runs
of claim-class characters taken in the original sentence, each run
lowercased afterwards. -/
def claimTokens (s : List Char) : List (List Char) :=
  ((s.splitOnP (fun c => !claimWordChar c)).filter
    (fun r => !r.isEmpty)).map (fun r => pyLowerStr r)

/-- A sentence holding a Devanagari digit (U+096B, a Unicode decimal
digit outside ASCII) and a Kelvin sign (U+212A, which lowercases into
the Latin-1 letter block). -/
def tokCex : List Char :=
  [Char.ofNat 0x96B, 'a', 'b', ' ', Char.ofNat 0x212A, 'c', 'd']

/-- Counterexample to C8 as stated: on tokCex the tokenizer returns
the runs of the lowercased sentence under the full Unicode-digit
class, which differ from the claim-worded extraction both because the
Devanagari digit is kept and because the Kelvin sign only joins the
class after lowercasing. -/
theorem C8_counterexample : _tokenize tokCex ≠ claimTokens tokCex := by
  decide

/-- C8 amended: the tokenizer yields exactly the maximal runs, within
the lowercased sentence, of characters from the union of Unicode
decimal digits, basic and extended Latin letters, and Arabic letters;
and the filter retains a token exactly when it is longer than 2 and
not a stopword. -/
theorem C8_tokenizer (s : List Char) (stop : List (List Char)) :
    _tokenize s =
      ((pyLowerStr s).splitOnP (fun c => !isWordChar c)).filter
        (fun r => !r.isEmpty) ∧
    (∀ t, t ∈ filteredTokens stop s ↔
      t ∈ _tokenize s ∧ 2 < t.length ∧ t ∉ stop) := by
  constructor
  · unfold _tokenize List.splitOnP
    exact runsAux_eq_splitOnP isWordChar (pyLowerStr s) []
  · intro t
    unfold filteredTokens
    rw [List.mem_filter]
    constructor
    · rintro ⟨htok, hpred⟩
      simp only [Bool.and_eq_true, Bool.not_eq_true', decide_eq_true_eq] at hpred
      refine ⟨htok, hpred.2, ?_⟩
      simpa using hpred.1.2
    · rintro ⟨htok, hlen, hstop⟩
      refine ⟨htok, ?_⟩
      have hne : t ≠ [] := runsAux_mem_ne_nil isWordChar _ _ t htok
      simp [hne, hlen, hstop]

end AIAssist
